import Mathlib

/-!
# Verification of `reupload_jsons_to_Orion.py`

A shallow embedding of the one-shot JSON uploader script.  The script's
behaviour is: enumerate the files of the relative directory given by the glob
pattern, parse each one with the `json` library inside a scoped file handle,
collect the parsed documents into a list, and hand that list to the broker
client's update operation.

The embedding has three layers:

* a JSON value type `Json` with an executable serializer (`serialize`,
  modelling `json.dumps` restricted to what the data model needs) and an
  executable parser (`parse`, modelling `json.load` on the decoded text of a
  file).  Numbers are modelled as integers: fraction and exponent literals
  (which Python turns into floats) are outside the model, as are `\uXXXX`
  escapes.  The parser is slightly more liberal than Python's about leading
  zeros and raw control characters inside strings; the serializer never
  produces either, and no claim depends on those inputs.
* a filesystem model: the listing of the `json/` directory, each entry being
  a readable file with decoded text content, an unreadable entry, or a
  subdirectory.  File contents are modelled at the level of decoded text.
* a trace semantics for the script's `main`: the events are file-handle
  acquisition and release and the single broker update call (the broker
  client is an external collaborator, so its call is modelled as an
  observable event).  Errors are values of `RunErr`; an uncaught Python
  exception is the run ending in `Except.error`.
-/

set_option maxHeartbeats 1000000

namespace Reupload

/-! ## JSON values -/

mutual

/-- A parsed JSON document, as produced by `json.load`: null, booleans,
numbers (integers in this model), strings, arrays and objects.  Objects keep
their members as a list in textual order. -/
inductive Json where
| null : Json
| bool (b : Bool) : Json
| num (n : Int) : Json
| str (s : String) : Json
| arr (es : JsonElems) : Json
| obj (ms : JsonMembers) : Json

/-- The element list of a JSON array. -/
inductive JsonElems where
| nil : JsonElems
| cons (hd : Json) (tl : JsonElems) : JsonElems

/-- The member list of a JSON object: key/value pairs in textual order. -/
inductive JsonMembers where
| nil : JsonMembers
| cons (key : String) (val : Json) (tl : JsonMembers) : JsonMembers

end

/-! ## Serialization (model of `json.dumps`, compact separators) -/

/-- The character of a decimal digit below ten. -/
def digChar : Nat → Char
| 0 => '0'
| 1 => '1'
| 2 => '2'
| 3 => '3'
| 4 => '4'
| 5 => '5'
| 6 => '6'
| 7 => '7'
| 8 => '8'
| _ => '9'

/-- Decimal digit characters of a natural number, most significant first,
with no leading zeros (a single zero for 0). -/
def natChars (n : Nat) : List Char :=
  if _h : n < 10 then [digChar n]
  else natChars (n / 10) ++ [digChar (n % 10)]
termination_by n
decreasing_by exact Nat.div_lt_self (by omega) (by omega)

/-- Decimal characters of an integer: an optional minus sign, then digits. -/
def intChars (n : Int) : List Char :=
  if n < 0 then '-' :: natChars n.natAbs else natChars n.toNat

/-- JSON string-body escaping: a quote or backslash gets a backslash escape,
every other character is emitted as it stands. -/
def escBody : List Char → List Char
| [] => []
| c :: cs =>
    if c = '"' then '\\' :: '"' :: escBody cs
    else if c = '\\' then '\\' :: '\\' :: escBody cs
    else c :: escBody cs

mutual

/-- Characters of the serialized form of a value. -/
def serVal : Json → List Char
| Json.null => ['n', 'u', 'l', 'l']
| Json.bool true => ['t', 'r', 'u', 'e']
| Json.bool false => ['f', 'a', 'l', 's', 'e']
| Json.num n => intChars n
| Json.str s => '"' :: escBody s.data ++ ['"']
| Json.arr JsonElems.nil => ['[', ']']
| Json.arr (JsonElems.cons v tl) => '[' :: (serVal v ++ serElemsTail tl) ++ [']']
| Json.obj JsonMembers.nil => ['{', '}']
| Json.obj (JsonMembers.cons k v tl) => '{' :: (serPair k v ++ serMembersTail tl) ++ ['}']

/-- One serialized `"key":value` member. -/
def serPair (k : String) (v : Json) : List Char :=
  '"' :: escBody k.data ++ '"' :: ':' :: serVal v

/-- The serialized elements after the first one, each preceded by a comma. -/
def serElemsTail : JsonElems → List Char
| JsonElems.nil => []
| JsonElems.cons v tl => ',' :: serVal v ++ serElemsTail tl

/-- The serialized members after the first one, each preceded by a comma. -/
def serMembersTail : JsonMembers → List Char
| JsonMembers.nil => []
| JsonMembers.cons k v tl => ',' :: serPair k v ++ serMembersTail tl

end

/-- Serialize a document (model of `json.dumps` with compact separators;
Python's default inserts spaces after separators, which only adds whitespace
the parser skips, so the parsed meaning is unchanged). -/
def serialize (v : Json) : String := String.mk (serVal v)

/-! ## Parsing (model of `json.load` on the file's decoded text) -/

/-- JSON insignificant whitespace. -/
def isWs (c : Char) : Bool := c = ' ' || c = '\t' || c = '\n' || c = '\r'

/-- Drop leading insignificant whitespace. -/
def skipWs : List Char → List Char
| [] => []
| c :: cs => if isWs c then skipWs cs else c :: cs

/-- Numeric value of a digit character. -/
def digVal (c : Char) : Nat := c.toNat - 48

/-- Consume a maximal run of digit characters, accumulating their value. -/
def takeDigits (acc : Nat) : List Char → Nat × List Char
| [] => (acc, [])
| c :: cs => if c.isDigit then takeDigits (10 * acc + digVal c) cs else (acc, c :: cs)

/-- Parse a nonempty digit run into a natural number. -/
def parseNat : List Char → Option (Nat × List Char)
| [] => none
| c :: cs => if c.isDigit then some (takeDigits 0 (c :: cs)) else none

/-- Decode one escape character (the character after a backslash). -/
def unescape (c : Char) : Option Char :=
  if c = '"' then some '"'
  else if c = '\\' then some '\\'
  else if c = '/' then some '/'
  else if c = 'n' then some '\n'
  else if c = 't' then some '\t'
  else if c = 'r' then some '\r'
  else if c = 'b' then some (Char.ofNat 8)
  else if c = 'f' then some (Char.ofNat 12)
  else none

/-- Parse a string body after its opening quote, up to and including the
closing quote, undoing escapes. -/
def parseStrBody : List Char → Option (List Char × List Char)
| [] => none
| c :: cs =>
    if c = '"' then some ([], cs)
    else if c = '\\' then
      match cs with
      | [] => none
      | e :: cs2 =>
        match unescape e with
        | none => none
        | some d =>
          match parseStrBody cs2 with
          | none => none
          | some (l, rest) => some (d :: l, rest)
    else
      match parseStrBody cs with
      | none => none
      | some (l, rest) => some (c :: l, rest)

/-- Check that the input starts with the given literal characters. -/
def expectChars : List Char → List Char → Option (List Char)
| [], cs => some cs
| _ :: _, [] => none
| e :: es, c :: cs => if c = e then expectChars es cs else none

/-- Finish a keyword token (`null`, `true`, `false`). -/
def kwTail (lit : List Char) (v : Json) (cs : List Char) : Option (Json × List Char) :=
  match expectChars lit cs with
  | none => none
  | some rest => some (v, rest)

/-- Finish a string token after its opening quote. -/
def strTail (cs : List Char) : Option (Json × List Char) :=
  match parseStrBody cs with
  | none => none
  | some (l, rest) => some (Json.str (String.mk l), rest)

/-- Finish a number token that starts with a digit. -/
def numTail (cs : List Char) : Option (Json × List Char) :=
  match parseNat cs with
  | none => none
  | some (n, rest) => some (Json.num (n : Int), rest)

/-- Finish a number token after a minus sign. -/
def negTail (cs : List Char) : Option (Json × List Char) :=
  match parseNat cs with
  | none => none
  | some (n, rest) => some (Json.num (-(n : Int)), rest)

mutual

/-- Parse one JSON value.  The fuel only bounds recursion depth; the
round-trip theorems show that the serialized length plus one is always
enough. -/
def parseVal : Nat → List Char → Option (Json × List Char)
| 0, _ => none
| f + 1, cs =>
  match skipWs cs with
  | [] => none
  | c :: r =>
    if c = 'n' then kwTail ['u', 'l', 'l'] Json.null r
    else if c = 't' then kwTail ['r', 'u', 'e'] (Json.bool true) r
    else if c = 'f' then kwTail ['a', 'l', 's', 'e'] (Json.bool false) r
    else if c = '"' then strTail r
    else if c = '[' then
      match skipWs r with
      | [] => none
      | d :: r2 =>
        if d = ']' then some (Json.arr JsonElems.nil, r2)
        else
          match parseElems f (d :: r2) with
          | none => none
          | some (es, r3) => some (Json.arr es, r3)
    else if c = '{' then
      match skipWs r with
      | [] => none
      | d :: r2 =>
        if d = '}' then some (Json.obj JsonMembers.nil, r2)
        else
          match parseMembers f (d :: r2) with
          | none => none
          | some (ms, r3) => some (Json.obj ms, r3)
    else if c = '-' then negTail r
    else if c.isDigit then numTail (c :: r)
    else none

/-- Parse one or more comma-separated array elements and the closing
bracket.  The empty array is handled in `parseVal`, so no trailing comma is
accepted. -/
def parseElems : Nat → List Char → Option (JsonElems × List Char)
| 0, _ => none
| f + 1, cs =>
  match parseVal f cs with
  | none => none
  | some (v, r) =>
    match skipWs r with
    | [] => none
    | c :: r2 =>
      if c = ',' then
        match parseElems f r2 with
        | none => none
        | some (es, r3) => some (JsonElems.cons v es, r3)
      else if c = ']' then some (JsonElems.cons v JsonElems.nil, r2)
      else none

/-- Parse one or more comma-separated object members and the closing brace.
The empty object is handled in `parseVal`. -/
def parseMembers : Nat → List Char → Option (JsonMembers × List Char)
| 0, _ => none
| f + 1, cs =>
  match skipWs cs with
  | [] => none
  | c :: r =>
    if c = '"' then
      match parseStrBody r with
      | none => none
      | some (k, r1) =>
        match skipWs r1 with
        | [] => none
        | c2 :: r2 =>
          if c2 = ':' then
            match parseVal f r2 with
            | none => none
            | some (v, r3) =>
              match skipWs r3 with
              | [] => none
              | c3 :: r4 =>
                if c3 = ',' then
                  match parseMembers f r4 with
                  | none => none
                  | some (ms, r5) => some (JsonMembers.cons (String.mk k) v ms, r5)
                else if c3 = '}' then
                  some (JsonMembers.cons (String.mk k) v JsonMembers.nil, r4)
                else none
          else none
    else none

end

/-- Parse a complete JSON document (model of `json.load`): one value, then
nothing but whitespace.  The fuel is the input length plus one, which the
round-trip theorems show is sufficient for every serialized value. -/
def parse (s : String) : Option Json :=
  match parseVal (s.data.length + 1) s.data with
  | none => none
  | some (v, rest) => if skipWs rest = [] then some v else none

/-- Does the input start with a digit character?  A serialized number may
only be followed by input for which this is false (a delimiter or the end),
since the parser consumes a maximal digit run. -/
def leadingDigit : List Char → Bool
| [] => false
| c :: _ => c.isDigit

/-! ## The filesystem model

The script touches the filesystem only through `glob.glob` on the fixed
pattern and through `open` on the returned paths, so the model is the listing
of the `json/` directory: a list of named entries in platform enumeration
order.  A missing directory and an empty one both give the empty listing,
exactly as `glob.glob` does not distinguish them.  An entry is a readable
file (with its decoded text content), an entry whose `open` raises (an
unreadable file), or a subdirectory (whose `open` also raises). -/

/-- What a directory entry is, as far as `open(path, 'r')` can tell. -/
inductive Node where
| file (content : String) : Node
| unreadable : Node
| dir : Node

/-- One entry of the `json/` directory listing. -/
structure Entry where
  name : String
  node : Node

/-- Does the entry name end in `.json`? -/
def hasJsonExt (name : String) : Bool :=
  decide (5 ≤ name.data.length) &&
    decide (name.data.drop (name.data.length - 5) = ['.', 'j', 's', 'o', 'n'])

/-- Does the entry name begin with a dot?  `glob`'s `*` never matches such
names. -/
def hiddenName (name : String) : Bool :=
  match name.data with
  | [] => false
  | c :: _ => c = '.'

/-- Python `glob` semantics of matching one directory entry against the
pattern `*.json`: the name must end in `.json` and, because `*` does not
match a leading dot, must not be hidden. -/
def globMatch (name : String) : Bool := !hiddenName name && hasJsonExt name

/-- `glob.glob('json/*.json')`: the names of the entries matching the
pattern, in listing order, one directory level only. -/
def discover (fs : List Entry) : List String :=
  (fs.filter fun e => globMatch e.name).map fun e => e.name

/-- `open(path, 'r')` followed by reading the whole content: the content of
the first entry of that name when it is a readable file, and a raised
`OSError` (`none`) when it is unreadable or a directory. -/
def openFile (fs : List Entry) (n : String) : Option String :=
  match fs.find? (fun e => e.name = n) with
  | none => none
  | some e =>
    match e.node with
    | Node.file content => some content
    | Node.unreadable => none
    | Node.dir => none

/-- `json.load` applied to an opened file: open, read the decoded text,
parse. -/
def loadDoc (fs : List Entry) (n : String) : Option Json :=
  match openFile fs n with
  | none => none
  | some content => parse content

/-! ## The run semantics of `main` -/

/-- The observable events of a run: acquiring and releasing one file handle,
and the broker client's update call with its batch argument. -/
inductive Ev where
| fileOpened (name : String) : Ev
| fileClosed (name : String) : Ev
| brokerUpdate (batch : List Json) : Ev

/-- The uncaught exceptions a run can end in. -/
inductive RunErr where
| ioError (name : String) : RunErr
| decodeError (name : String) : RunErr

/-- The `for json_ in jsons` loop: each iteration opens the file, reads and
parses it inside the `with` block (which releases the handle on both exits),
and appends the document.  A failed `open` acquires no handle; a failed parse
still releases the handle before the exception propagates. -/
def loadLoop (fs : List Entry) : List String → List Json → List Ev × Except RunErr (List Json)
| [], acc => ([], Except.ok acc)
| n :: rest, acc =>
  match openFile fs n with
  | none => ([], Except.error (RunErr.ioError n))
  | some content =>
    match parse content with
    | none => ([Ev.fileOpened n, Ev.fileClosed n], Except.error (RunErr.decodeError n))
    | some doc =>
      (Ev.fileOpened n :: Ev.fileClosed n :: (loadLoop fs rest (acc ++ [doc])).1,
        (loadLoop fs rest (acc ++ [doc])).2)

/-- The script's `main`: discovery, the parse loop starting from the empty
list, then a single `Orion.update(objects)` call.  The returned trace is the
event sequence of the run and the `Except` is its outcome (an uncaught
exception, or normal termination). -/
def main (fs : List Entry) : List Ev × Except RunErr Unit :=
  match (loadLoop fs (discover fs) []).2 with
  | Except.ok objects =>
      ((loadLoop fs (discover fs) []).1 ++ [Ev.brokerUpdate objects], Except.ok ())
  | Except.error e => ((loadLoop fs (discover fs) []).1, Except.error e)

/-- The open/close event pairs of a run that processes the given files. -/
def pairedEvs : List String → List Ev
| [] => []
| n :: rest => Ev.fileOpened n :: Ev.fileClosed n :: pairedEvs rest

/-- How often the given file is opened in a trace. -/
def countOpens (n : String) : List Ev → Nat
| [] => 0
| Ev.fileOpened m :: rest => (if m = n then 1 else 0) + countOpens n rest
| _ :: rest => countOpens n rest

/-- How often the given file is closed in a trace. -/
def countCloses (n : String) : List Ev → Nat
| [] => 0
| Ev.fileClosed m :: rest => (if m = n then 1 else 0) + countCloses n rest
| _ :: rest => countCloses n rest

/-- How often the broker update is called in a trace. -/
def countUpdates : List Ev → Nat
| [] => 0
| Ev.brokerUpdate _ :: rest => 1 + countUpdates rest
| _ :: rest => countUpdates rest

/-! ## Run lemmas -/

theorem loadLoop_ok (fs : List Entry) :
    ∀ (names : List String) (docs acc : List Json),
      names.map (loadDoc fs) = docs.map some →
      loadLoop fs names acc = (pairedEvs names, Except.ok (acc ++ docs)) := by
  intro names
  induction names with
  | nil =>
      intro docs acc h
      cases docs with
      | nil => simp [loadLoop, pairedEvs]
      | cons d ds => simp at h
  | cons n rest ih =>
      intro docs acc h
      cases docs with
      | nil => simp at h
      | cons d ds =>
          simp only [List.map_cons, List.cons.injEq] at h
          obtain ⟨hn, hrest⟩ := h
          rcases hof : openFile fs n with _ | content
          · simp [loadDoc, hof] at hn
          · simp only [loadDoc, hof] at hn
            simp only [loadLoop, hof, hn, ih ds (acc ++ [d]) hrest]
            simp [pairedEvs]

theorem loadLoop_no_update (fs : List Entry) :
    ∀ (names : List String) (acc : List Json) (b : List Json),
      Ev.brokerUpdate b ∉ (loadLoop fs names acc).1 := by
  intro names
  induction names with
  | nil => intro acc b; simp [loadLoop]
  | cons n rest ih =>
      intro acc b
      rcases hof : openFile fs n with _ | content
      · simp [loadLoop, hof]
      · rcases hp : parse content with _ | doc
        · simp [loadLoop, hof, hp]
        · simp only [loadLoop, hof, hp, List.mem_cons]
          rintro (h | h | h)
          · exact Ev.noConfusion h
          · exact Ev.noConfusion h
          · exact ih (acc ++ [doc]) b h

theorem loadLoop_fail (fs : List Entry) (bad : String) (post : List String)
    (hbad : loadDoc fs bad = none) :
    ∀ (pre : List String) (acc : List Json),
      (∀ n ∈ pre, loadDoc fs n ≠ none) →
      (∃ err, (loadLoop fs (pre ++ bad :: post) acc).2 = Except.error err) ∧
        (∀ m, Ev.fileOpened m ∈ (loadLoop fs (pre ++ bad :: post) acc).1 → m ∈ pre ++ [bad]) := by
  intro pre
  induction pre with
  | nil =>
      intro acc _
      rcases hof : openFile fs bad with _ | content
      · refine ⟨⟨RunErr.ioError bad, by simp [loadLoop, hof]⟩, ?_⟩
        intro m hm
        simp [loadLoop, hof] at hm
      · simp only [loadDoc, hof] at hbad
        refine ⟨⟨RunErr.decodeError bad, by simp [loadLoop, hof, hbad]⟩, ?_⟩
        intro m hm
        simp only [List.nil_append, loadLoop, hof, hbad, List.mem_cons,
          List.not_mem_nil, or_false] at hm
        rcases hm with h | h
        · cases h; simp
        · exact Ev.noConfusion h
  | cons p pre' ih =>
      intro acc hpre
      have hp : loadDoc fs p ≠ none := hpre p (by simp)
      rcases hof : openFile fs p with _ | content
      · simp only [loadDoc, hof] at hp; exact absurd rfl hp
      · rcases hparse : parse content with _ | doc
        · simp only [loadDoc, hof] at hp; exact absurd hparse hp
        · obtain ⟨⟨err, herr⟩, hmem⟩ :=
            ih (acc ++ [doc]) (fun n hn => hpre n (by simp [hn]))
          refine ⟨⟨err, ?_⟩, ?_⟩
          · simpa [loadLoop, hof, hparse] using herr
          · intro m hm
            simp only [List.cons_append, loadLoop, hof, hparse, List.mem_cons] at hm
            rcases hm with h | h | h
            · cases h; simp
            · exact Ev.noConfusion h
            · have := hmem m h
              simp only [List.cons_append, List.mem_cons]
              right
              simpa using this

theorem loadLoop_err_of_fail (fs : List Entry) :
    ∀ (names : List String) (acc : List Json),
      (∃ n ∈ names, loadDoc fs n = none) →
      ∃ err, (loadLoop fs names acc).2 = Except.error err := by
  intro names
  induction names with
  | nil => intro acc h; simp at h
  | cons n rest ih =>
      intro acc h
      rcases hof : openFile fs n with _ | content
      · exact ⟨RunErr.ioError n, by simp [loadLoop, hof]⟩
      · rcases hp : parse content with _ | doc
        · exact ⟨RunErr.decodeError n, by simp [loadLoop, hof, hp]⟩
        · rcases h with ⟨m, hm, hnone⟩
          rcases List.mem_cons.mp hm with rfl | hm'
          · simp [loadDoc, hof, hp] at hnone
          · obtain ⟨err, herr⟩ := ih (acc ++ [doc]) ⟨m, hm', hnone⟩
            exact ⟨err, by simpa [loadLoop, hof, hp] using herr⟩

theorem countOpens_append (n : String) :
    ∀ (l1 l2 : List Ev), countOpens n (l1 ++ l2) = countOpens n l1 + countOpens n l2 := by
  intro l1 l2
  induction l1 with
  | nil => simp [countOpens]
  | cons e rest ih =>
      cases e <;> simp [countOpens, ih] <;> omega

theorem countCloses_append (n : String) :
    ∀ (l1 l2 : List Ev), countCloses n (l1 ++ l2) = countCloses n l1 + countCloses n l2 := by
  intro l1 l2
  induction l1 with
  | nil => simp [countCloses]
  | cons e rest ih =>
      cases e <;> simp [countCloses, ih] <;> omega

theorem countUpdates_append :
    ∀ (l1 l2 : List Ev), countUpdates (l1 ++ l2) = countUpdates l1 + countUpdates l2 := by
  intro l1 l2
  induction l1 with
  | nil => simp [countUpdates]
  | cons e rest ih =>
      cases e <;> simp [countUpdates, ih] <;> omega

theorem countUpdates_pairedEvs : ∀ (names : List String), countUpdates (pairedEvs names) = 0 := by
  intro names
  induction names with
  | nil => rfl
  | cons n rest ih => simp [pairedEvs, countUpdates, ih]

theorem loadLoop_balanced (fs : List Entry) (n : String) :
    ∀ (names : List String) (acc : List Json),
      countOpens n (loadLoop fs names acc).1 = countCloses n (loadLoop fs names acc).1 := by
  intro names
  induction names with
  | nil => intro acc; rfl
  | cons m rest ih =>
      intro acc
      rcases hof : openFile fs m with _ | content
      · simp [loadLoop, hof, countOpens, countCloses]
      · rcases hp : parse content with _ | doc
        · simp [loadLoop, hof, hp, countOpens, countCloses]
        · simp [loadLoop, hof, hp, countOpens, countCloses, ih (acc ++ [doc])]

theorem loadLoop_ext (fs1 fs2 : List Entry) :
    ∀ (names : List String) (acc : List Json),
      (∀ n ∈ names, openFile fs1 n = openFile fs2 n) →
      loadLoop fs1 names acc = loadLoop fs2 names acc := by
  intro names
  induction names with
  | nil => intro acc _; rfl
  | cons n rest ih =>
      intro acc h
      have hn : openFile fs1 n = openFile fs2 n := h n (by simp)
      have hrest : ∀ m ∈ rest, openFile fs1 m = openFile fs2 m :=
        fun m hm => h m (by simp [hm])
      rcases hof : openFile fs2 n with _ | content
      · simp only [loadLoop, hn, hof]
      · rcases hp : parse content with _ | doc
        · simp only [loadLoop, hn, hof, hp]
        · simp only [loadLoop, hn, hof, hp, ih (acc ++ [doc]) hrest]

theorem mem_discover_iff (fs : List Entry) (n : String) :
    n ∈ discover fs ↔
      (∃ e ∈ fs, e.name = n) ∧ hasJsonExt n = true ∧ hiddenName n = false := by
  simp only [discover, List.mem_map, List.mem_filter]
  constructor
  · rintro ⟨e, ⟨hmem, hglob⟩, rfl⟩
    simp only [globMatch, Bool.and_eq_true, Bool.not_eq_true'] at hglob
    exact ⟨⟨e, hmem, rfl⟩, hglob.2, hglob.1⟩
  · rintro ⟨⟨e, hmem, rfl⟩, hext, hhid⟩
    exact ⟨e, ⟨hmem, by simp [globMatch, hext, hhid]⟩, rfl⟩

/-! ## Round-trip lemmas: tokens -/

theorem skipWs_cons_id (c : Char) (cs : List Char) (h : isWs c = false) :
    skipWs (c :: cs) = c :: cs := by
  simp [skipWs, h]

theorem ne_of_isDigit {c d : Char} (hc : c.isDigit = true) (hd : d.isDigit = false) :
    c ≠ d := by
  intro h
  subst h
  rw [hc] at hd
  exact Bool.noConfusion hd

theorem isDigit_not_ws {c : Char} (hc : c.isDigit = true) : isWs c = false := by
  by_contra h
  rw [Bool.not_eq_false] at h
  simp only [isWs, Bool.or_eq_true, decide_eq_true_eq] at h
  rcases h with ((h | h) | h) | h <;>
    (subst h; exact absurd hc (by decide))

theorem digChar_isDigit (d : Nat) (h : d < 10) : (digChar d).isDigit = true := by
  interval_cases d <;> decide

theorem digVal_digChar (d : Nat) (h : d < 10) : digVal (digChar d) = d := by
  interval_cases d <;> decide

theorem natChars_small (n : Nat) (h : n < 10) : natChars n = [digChar n] := by
  rw [natChars]
  simp [h]

theorem natChars_large (n : Nat) (h : ¬ n < 10) :
    natChars n = natChars (n / 10) ++ [digChar (n % 10)] := by
  rw [natChars]
  simp [h]

theorem natChars_digits (n : Nat) : ∀ c ∈ natChars n, c.isDigit = true := by
  induction n using Nat.strong_induction_on with
  | _ n ih =>
    by_cases h : n < 10
    · rw [natChars_small n h]
      intro c hc
      rw [List.mem_singleton] at hc
      subst hc
      exact digChar_isDigit n h
    · rw [natChars_large n h]
      intro c hc
      rcases List.mem_append.mp hc with h1 | h1
      · exact ih (n / 10) (Nat.div_lt_self (by omega) (by omega)) c h1
      · rw [List.mem_singleton] at h1
        subst h1
        exact digChar_isDigit _ (Nat.mod_lt _ (by omega))

theorem natChars_lead (n : Nat) :
    ∃ c t, natChars n = c :: t ∧ c.isDigit = true := by
  by_cases h : n < 10
  · exact ⟨digChar n, [], natChars_small n h, digChar_isDigit n h⟩
  · rw [natChars_large n h]
    obtain ⟨c, t, hct, hc⟩ :=
      show ∃ c t, natChars (n / 10) = c :: t ∧ c.isDigit = true from by
        have := natChars_lead (n / 10)
        exact this
    exact ⟨c, t ++ [digChar (n % 10)], by rw [hct]; rfl, hc⟩
termination_by n
decreasing_by exact Nat.div_lt_self (by omega) (by omega)

theorem foldVal_natChars (n : Nat) :
    ∀ acc, List.foldl (fun a c => 10 * a + digVal c) acc (natChars n)
      = acc * 10 ^ (natChars n).length + n := by
  induction n using Nat.strong_induction_on with
  | _ n ih =>
    intro acc
    by_cases h : n < 10
    · rw [natChars_small n h]
      simp [digVal_digChar n h]
      omega
    · rw [natChars_large n h]
      rw [List.foldl_append, ih (n / 10) (Nat.div_lt_self (by omega) (by omega)) acc]
      simp [digVal_digChar _ (Nat.mod_lt n (by omega)), pow_succ]
      ring_nf
      omega

theorem takeDigits_run :
    ∀ (l : List Char), (∀ c ∈ l, c.isDigit = true) →
      ∀ (acc : Nat) (rest : List Char), leadingDigit rest = false →
        takeDigits acc (l ++ rest)
          = (List.foldl (fun a c => 10 * a + digVal c) acc l, rest) := by
  intro l
  induction l with
  | nil =>
      intro _ acc rest hrest
      cases rest with
      | nil => rfl
      | cons c t =>
          simp only [leadingDigit] at hrest
          simp [takeDigits, hrest]
  | cons c t ih =>
      intro hdig acc rest hrest
      have hc : c.isDigit = true := hdig c (by simp)
      simp only [List.cons_append, takeDigits, hc, if_pos]
      exact ih (fun x hx => hdig x (by simp [hx])) _ rest hrest

theorem parseNat_natChars (n : Nat) (rest : List Char) (hrest : leadingDigit rest = false) :
    parseNat (natChars n ++ rest) = some (n, rest) := by
  obtain ⟨c, t, hct, hc⟩ := natChars_lead n
  rw [hct, List.cons_append, parseNat]
  rw [if_pos hc, ← List.cons_append, ← hct,
    takeDigits_run (natChars n) (natChars_digits n) 0 rest hrest,
    foldVal_natChars n 0]
  simp

theorem parseStrBody_esc :
    ∀ (l rest : List Char), parseStrBody (escBody l ++ '"' :: rest) = some (l, rest) := by
  intro l
  induction l with
  | nil =>
      intro rest
      simp only [escBody, List.nil_append]
      rw [parseStrBody.eq_def]
      simp
  | cons c t ih =>
      intro rest
      by_cases h1 : c = '"'
      · subst h1
        simp [escBody, parseStrBody, unescape, ih]
      · by_cases h2 : c = '\\'
        · subst h2
          simp [escBody, parseStrBody, unescape, ih, h1]
        · have h3 := ih rest
          rw [escBody.eq_def]
          simp only [if_neg h1, if_neg h2, List.cons_append]
          rw [parseStrBody.eq_def]
          simp [h1, h2, h3]

theorem string_mk_data (s : String) : String.mk s.data = s := rfl

/-! ## Round-trip lemmas: dispatch on the first serialized character -/

theorem serVal_lead (v : Json) :
    ∃ c t, serVal v = c :: t ∧ isWs c = false ∧ c ≠ ']' ∧ c ≠ '}' := by
  cases v with
  | null => exact ⟨'n', ['u', 'l', 'l'], by simp [serVal], by decide, by decide, by decide⟩
  | bool b =>
      cases b with
      | true => exact ⟨'t', ['r', 'u', 'e'], by simp [serVal], by decide, by decide, by decide⟩
      | false =>
          exact ⟨'f', ['a', 'l', 's', 'e'], by simp [serVal], by decide, by decide, by decide⟩
  | num n =>
      by_cases hm : n < 0
      · refine ⟨'-', natChars n.natAbs, ?_, by decide, by decide, by decide⟩
        simp [serVal, intChars, hm]
      · obtain ⟨c, t, hct, hc⟩ := natChars_lead n.toNat
        refine ⟨c, t, ?_, isDigit_not_ws hc, ne_of_isDigit hc (by decide),
          ne_of_isDigit hc (by decide)⟩
        simp [serVal, intChars, hm, hct]
  | str s =>
      exact ⟨'"', escBody s.data ++ ['"'], by simp [serVal], by decide, by decide, by decide⟩
  | arr es =>
      cases es with
      | nil => exact ⟨'[', [']'], by simp [serVal], by decide, by decide, by decide⟩
      | cons v tl =>
          exact ⟨'[', serVal v ++ (serElemsTail tl ++ [']']), by simp [serVal],
            by decide, by decide, by decide⟩
  | obj ms =>
      cases ms with
      | nil => exact ⟨'{', ['}'], by simp [serVal], by decide, by decide, by decide⟩
      | cons k v tl =>
          exact ⟨'{', serPair k v ++ (serMembersTail tl ++ ['}']), by simp [serVal],
            by decide, by decide, by decide⟩

theorem parseVal_kw_null (f : Nat) (cs r : List Char) (h : skipWs cs = 'n' :: r) :
    parseVal (f + 1) cs = kwTail ['u', 'l', 'l'] Json.null r := by
  rw [parseVal.eq_def]
  simp [h]

theorem parseVal_kw_true (f : Nat) (cs r : List Char) (h : skipWs cs = 't' :: r) :
    parseVal (f + 1) cs = kwTail ['r', 'u', 'e'] (Json.bool true) r := by
  rw [parseVal.eq_def]
  simp [h]

theorem parseVal_kw_false (f : Nat) (cs r : List Char) (h : skipWs cs = 'f' :: r) :
    parseVal (f + 1) cs = kwTail ['a', 'l', 's', 'e'] (Json.bool false) r := by
  rw [parseVal.eq_def]
  simp [h]

theorem parseVal_quote (f : Nat) (cs r : List Char) (h : skipWs cs = '"' :: r) :
    parseVal (f + 1) cs = strTail r := by
  rw [parseVal.eq_def]
  simp [h]

theorem parseVal_minus (f : Nat) (cs r : List Char) (h : skipWs cs = '-' :: r) :
    parseVal (f + 1) cs = negTail r := by
  rw [parseVal.eq_def]
  simp [h]

theorem parseVal_digit (f : Nat) (cs r : List Char) (c : Char)
    (h : skipWs cs = c :: r) (hc : c.isDigit = true) :
    parseVal (f + 1) cs = numTail (c :: r) := by
  have h1 : c ≠ 'n' := ne_of_isDigit hc (by decide)
  have h2 : c ≠ 't' := ne_of_isDigit hc (by decide)
  have h3 : c ≠ 'f' := ne_of_isDigit hc (by decide)
  have h4 : c ≠ '"' := ne_of_isDigit hc (by decide)
  have h5 : c ≠ '[' := ne_of_isDigit hc (by decide)
  have h6 : c ≠ '{' := ne_of_isDigit hc (by decide)
  have h7 : c ≠ '-' := ne_of_isDigit hc (by decide)
  rw [parseVal.eq_def]
  simp [h, h1, h2, h3, h4, h5, h6, h7, hc]

theorem parseVal_arrStart (f : Nat) (cs r : List Char) (h : skipWs cs = '[' :: r) :
    parseVal (f + 1) cs
      = (match skipWs r with
         | [] => none
         | d :: r2 =>
           if d = ']' then some (Json.arr JsonElems.nil, r2)
           else
             match parseElems f (d :: r2) with
             | none => none
             | some (es, r3) => some (Json.arr es, r3)) := by
  rw [parseVal.eq_def]
  simp [h]

theorem parseVal_objStart (f : Nat) (cs r : List Char) (h : skipWs cs = '{' :: r) :
    parseVal (f + 1) cs
      = (match skipWs r with
         | [] => none
         | d :: r2 =>
           if d = '}' then some (Json.obj JsonMembers.nil, r2)
           else
             match parseMembers f (d :: r2) with
             | none => none
             | some (ms, r3) => some (Json.obj ms, r3)) := by
  rw [parseVal.eq_def]
  simp [h]

/-! ## The round-trip theorems -/

theorem expectChars_self : ∀ (lit rest : List Char), expectChars lit (lit ++ rest) = some rest := by
  intro lit
  induction lit with
  | nil => intro rest; rfl
  | cons e es ih =>
      intro rest
      rw [List.cons_append, expectChars.eq_def]
      simp [ih]

theorem kwTail_self (lit : List Char) (v : Json) (rest : List Char) :
    kwTail lit v (lit ++ rest) = some (v, rest) := by
  simp [kwTail, expectChars_self]

theorem skipWs_rbracket (cs : List Char) : skipWs (']' :: cs) = ']' :: cs :=
  skipWs_cons_id _ _ (by decide)

theorem skipWs_rbrace (cs : List Char) : skipWs ('}' :: cs) = '}' :: cs :=
  skipWs_cons_id _ _ (by decide)

theorem skipWs_comma (cs : List Char) : skipWs (',' :: cs) = ',' :: cs :=
  skipWs_cons_id _ _ (by decide)

theorem skipWs_colon (cs : List Char) : skipWs (':' :: cs) = ':' :: cs :=
  skipWs_cons_id _ _ (by decide)

theorem skipWs_quote (cs : List Char) : skipWs ('"' :: cs) = '"' :: cs :=
  skipWs_cons_id _ _ (by decide)

theorem leadingDigit_cons (c : Char) (cs : List Char) : leadingDigit (c :: cs) = c.isDigit := rfl

theorem serPair_length (k : String) (v : Json) :
    (serPair k v).length = (escBody k.data).length + 3 + (serVal v).length := by
  simp only [serPair, List.length_cons, List.length_append, List.length_nil]
  omega

mutual

theorem rtV : ∀ (v : Json) (f : Nat) (rest : List Char),
    (serVal v).length < f → leadingDigit rest = false →
    parseVal f (serVal v ++ rest) = some (v, rest)
| Json.null, f, rest, hf, _ => by
    cases f with
    | zero => exact absurd hf (Nat.not_lt_zero _)
    | succ f =>
        have harg : serVal Json.null ++ rest = 'n' :: ('u' :: 'l' :: 'l' :: rest) := by
          simp [serVal]
        have hsk : skipWs (serVal Json.null ++ rest) = 'n' :: ('u' :: 'l' :: 'l' :: rest) := by
          rw [harg]; exact skipWs_cons_id _ _ (by decide)
        rw [parseVal_kw_null f _ _ hsk]
        exact kwTail_self ['u', 'l', 'l'] Json.null rest
| Json.bool true, f, rest, hf, _ => by
    cases f with
    | zero => exact absurd hf (Nat.not_lt_zero _)
    | succ f =>
        have harg : serVal (Json.bool true) ++ rest = 't' :: ('r' :: 'u' :: 'e' :: rest) := by
          simp [serVal]
        have hsk : skipWs (serVal (Json.bool true) ++ rest)
            = 't' :: ('r' :: 'u' :: 'e' :: rest) := by
          rw [harg]; exact skipWs_cons_id _ _ (by decide)
        rw [parseVal_kw_true f _ _ hsk]
        exact kwTail_self ['r', 'u', 'e'] (Json.bool true) rest
| Json.bool false, f, rest, hf, _ => by
    cases f with
    | zero => exact absurd hf (Nat.not_lt_zero _)
    | succ f =>
        have harg : serVal (Json.bool false) ++ rest
            = 'f' :: ('a' :: 'l' :: 's' :: 'e' :: rest) := by
          simp [serVal]
        have hsk : skipWs (serVal (Json.bool false) ++ rest)
            = 'f' :: ('a' :: 'l' :: 's' :: 'e' :: rest) := by
          rw [harg]; exact skipWs_cons_id _ _ (by decide)
        rw [parseVal_kw_false f _ _ hsk]
        exact kwTail_self ['a', 'l', 's', 'e'] (Json.bool false) rest
| Json.num n, f, rest, hf, hd => by
    cases f with
    | zero => exact absurd hf (Nat.not_lt_zero _)
    | succ f =>
        by_cases hm : n < 0
        · have harg : serVal (Json.num n) ++ rest = '-' :: (natChars n.natAbs ++ rest) := by
            simp [serVal, intChars, hm]
          have hsk : skipWs (serVal (Json.num n) ++ rest)
              = '-' :: (natChars n.natAbs ++ rest) := by
            rw [harg]; exact skipWs_cons_id _ _ (by decide)
          rw [parseVal_minus f _ _ hsk]
          simp only [negTail, parseNat_natChars n.natAbs rest hd]
          have hval : -((n.natAbs : Nat) : Int) = n := by omega
          rw [hval]
        · obtain ⟨c, t, hct, hc⟩ := natChars_lead n.toNat
          have harg : serVal (Json.num n) ++ rest = c :: (t ++ rest) := by
            simp [serVal, intChars, hm, hct]
          have hsk : skipWs (serVal (Json.num n) ++ rest) = c :: (t ++ rest) := by
            rw [harg]; exact skipWs_cons_id _ _ (isDigit_not_ws hc)
          rw [parseVal_digit f _ _ c hsk hc]
          have hre : c :: (t ++ rest) = natChars n.toNat ++ rest := by rw [hct]; rfl
          rw [hre]
          simp only [numTail, parseNat_natChars n.toNat rest hd]
          have hval : ((n.toNat : Nat) : Int) = n := by omega
          rw [hval]
| Json.str s, f, rest, hf, _ => by
    cases f with
    | zero => exact absurd hf (Nat.not_lt_zero _)
    | succ f =>
        have harg : serVal (Json.str s) ++ rest = '"' :: (escBody s.data ++ '"' :: rest) := by
          simp [serVal]
        have hsk : skipWs (serVal (Json.str s) ++ rest)
            = '"' :: (escBody s.data ++ '"' :: rest) := by
          rw [harg]; exact skipWs_cons_id _ _ (by decide)
        rw [parseVal_quote f _ _ hsk]
        simp only [strTail, parseStrBody_esc s.data rest]
| Json.arr JsonElems.nil, f, rest, hf, _ => by
    cases f with
    | zero => exact absurd hf (Nat.not_lt_zero _)
    | succ f =>
        have harg : serVal (Json.arr JsonElems.nil) ++ rest = '[' :: (']' :: rest) := by
          simp [serVal]
        have hsk : skipWs (serVal (Json.arr JsonElems.nil) ++ rest) = '[' :: (']' :: rest) := by
          rw [harg]; exact skipWs_cons_id _ _ (by decide)
        rw [parseVal_arrStart f _ _ hsk]
        simp [skipWs_rbracket]
| Json.arr (JsonElems.cons v tl), f, rest, hf, _ => by
    cases f with
    | zero => exact absurd hf (Nat.not_lt_zero _)
    | succ f =>
        simp only [serVal, List.length_cons, List.length_append, List.length_nil] at hf
        have harg : serVal (Json.arr (JsonElems.cons v tl)) ++ rest
            = '[' :: (serVal v ++ (serElemsTail tl ++ ']' :: rest)) := by
          simp [serVal]
        have hsk : skipWs (serVal (Json.arr (JsonElems.cons v tl)) ++ rest)
            = '[' :: (serVal v ++ (serElemsTail tl ++ ']' :: rest)) := by
          rw [harg]; exact skipWs_cons_id _ _ (by decide)
        rw [parseVal_arrStart f _ _ hsk]
        obtain ⟨c0, t0, hct0, hws0, hbr0, _⟩ := serVal_lead v
        have hinner : serVal v ++ (serElemsTail tl ++ ']' :: rest)
            = c0 :: (t0 ++ (serElemsTail tl ++ ']' :: rest)) := by rw [hct0]; rfl
        rw [hinner, skipWs_cons_id _ _ hws0]
        simp only [if_neg hbr0]
        rw [← hinner]
        have hkey := rtElems v tl f rest (by omega)
        simp [hkey]
| Json.obj JsonMembers.nil, f, rest, hf, _ => by
    cases f with
    | zero => exact absurd hf (Nat.not_lt_zero _)
    | succ f =>
        have harg : serVal (Json.obj JsonMembers.nil) ++ rest = '{' :: ('}' :: rest) := by
          simp [serVal]
        have hsk : skipWs (serVal (Json.obj JsonMembers.nil) ++ rest) = '{' :: ('}' :: rest) := by
          rw [harg]; exact skipWs_cons_id _ _ (by decide)
        rw [parseVal_objStart f _ _ hsk]
        simp [skipWs_rbrace]
| Json.obj (JsonMembers.cons k v tl), f, rest, hf, _ => by
    cases f with
    | zero => exact absurd hf (Nat.not_lt_zero _)
    | succ f =>
        simp only [serVal, List.length_cons, List.length_append, List.length_nil] at hf
        have harg : serVal (Json.obj (JsonMembers.cons k v tl)) ++ rest
            = '{' :: (serPair k v ++ (serMembersTail tl ++ '}' :: rest)) := by
          simp [serVal]
        have hsk : skipWs (serVal (Json.obj (JsonMembers.cons k v tl)) ++ rest)
            = '{' :: (serPair k v ++ (serMembersTail tl ++ '}' :: rest)) := by
          rw [harg]; exact skipWs_cons_id _ _ (by decide)
        rw [parseVal_objStart f _ _ hsk]
        have hinner : serPair k v ++ (serMembersTail tl ++ '}' :: rest)
            = '"' :: ((escBody k.data ++ '"' :: ':' :: serVal v)
                ++ (serMembersTail tl ++ '}' :: rest)) := by
          rw [serPair]; rfl
        rw [hinner, skipWs_quote]
        simp only [if_neg (by decide : ¬('"' : Char) = '}')]
        rw [← hinner]
        have hpl := serPair_length k v
        have hkey := rtMembers k v tl f rest (by omega)
        simp [hkey]
termination_by v _ _ _ _ => sizeOf v

theorem rtElems : ∀ (v : Json) (tl : JsonElems) (f : Nat) (rest : List Char),
    (serVal v).length + (serElemsTail tl).length + 1 < f →
    parseElems f (serVal v ++ (serElemsTail tl ++ ']' :: rest)) = some (JsonElems.cons v tl, rest)
| v, JsonElems.nil, f, rest, hf => by
    cases f with
    | zero => exact absurd hf (Nat.not_lt_zero _)
    | succ f =>
        simp only [serElemsTail, List.length_nil] at hf
        have harg : serVal v ++ (serElemsTail JsonElems.nil ++ ']' :: rest)
            = serVal v ++ ']' :: rest := by simp [serElemsTail]
        have hld : leadingDigit (']' :: rest) = false := by
          rw [leadingDigit_cons]; decide
        have hv := rtV v f (']' :: rest) (by omega) hld
        rw [harg, parseElems.eq_def]
        simp [hv, skipWs_rbracket]
| v, JsonElems.cons v2 tl2, f, rest, hf => by
    cases f with
    | zero => exact absurd hf (Nat.not_lt_zero _)
    | succ f =>
        simp only [serElemsTail, List.length_cons, List.length_append, List.length_nil] at hf
        have harg : serVal v ++ (serElemsTail (JsonElems.cons v2 tl2) ++ ']' :: rest)
            = serVal v ++ (',' :: (serVal v2 ++ (serElemsTail tl2 ++ ']' :: rest))) := by
          simp [serElemsTail]
        have hld : leadingDigit (',' :: (serVal v2 ++ (serElemsTail tl2 ++ ']' :: rest)))
            = false := by
          rw [leadingDigit_cons]; decide
        have hv := rtV v f (',' :: (serVal v2 ++ (serElemsTail tl2 ++ ']' :: rest)))
          (by omega) hld
        have hkey := rtElems v2 tl2 f rest (by omega)
        rw [harg, parseElems.eq_def]
        simp [hv, skipWs_comma, hkey]
termination_by v tl _ _ _ => 1 + sizeOf v + sizeOf tl

theorem rtMembers : ∀ (k : String) (v : Json) (tl : JsonMembers) (f : Nat) (rest : List Char),
    (serPair k v).length + (serMembersTail tl).length + 1 < f →
    parseMembers f (serPair k v ++ (serMembersTail tl ++ '}' :: rest))
      = some (JsonMembers.cons k v tl, rest)
| k, v, JsonMembers.nil, f, rest, hf => by
    cases f with
    | zero => exact absurd hf (Nat.not_lt_zero _)
    | succ f =>
        have hpl := serPair_length k v
        simp only [serMembersTail, List.length_nil] at hf
        have harg : serPair k v ++ (serMembersTail JsonMembers.nil ++ '}' :: rest)
            = '"' :: (escBody k.data ++ '"' :: (':' :: (serVal v ++ '}' :: rest))) := by
          simp [serPair, serMembersTail]
        have hld : leadingDigit ('}' :: rest) = false := by
          rw [leadingDigit_cons]; decide
        have hv := rtV v f ('}' :: rest) (by omega) hld
        rw [harg, parseMembers.eq_def]
        simp [skipWs_quote, parseStrBody_esc k.data, skipWs_colon, hv, skipWs_rbrace,
          string_mk_data]
| k, v, JsonMembers.cons k2 v2 tl2, f, rest, hf => by
    cases f with
    | zero => exact absurd hf (Nat.not_lt_zero _)
    | succ f =>
        have hpl := serPair_length k v
        simp only [serMembersTail, List.length_cons, List.length_append, List.length_nil] at hf
        have harg : serPair k v ++ (serMembersTail (JsonMembers.cons k2 v2 tl2) ++ '}' :: rest)
            = '"' :: (escBody k.data ++ '"' :: (':' :: (serVal v
                ++ ',' :: (serPair k2 v2 ++ (serMembersTail tl2 ++ '}' :: rest))))) := by
          simp [serPair, serMembersTail]
        have hld : leadingDigit (',' :: (serPair k2 v2 ++ (serMembersTail tl2 ++ '}' :: rest)))
            = false := by
          rw [leadingDigit_cons]; decide
        have hv := rtV v f (',' :: (serPair k2 v2 ++ (serMembersTail tl2 ++ '}' :: rest)))
          (by omega) hld
        have hkey := rtMembers k2 v2 tl2 f rest (by omega)
        rw [harg, parseMembers.eq_def]
        simp [skipWs_quote, parseStrBody_esc k.data, skipWs_colon, hv, skipWs_comma,
          hkey, string_mk_data]
termination_by _ v tl _ _ _ => 1 + sizeOf v + sizeOf tl

end

/-- The serialized length bounds the fuel the top-level parser allots, so
`parse` round-trips every document. -/
theorem parse_serialize (v : Json) : parse (serialize v) = some v := by
  have hv := rtV v ((serVal v).length + 1) [] (by omega) (by decide)
  rw [List.append_nil] at hv
  have hdata : (serialize v).data = serVal v := rfl
  rw [parse, hdata, hv]
  rfl

/-! ## The claims -/

/-- C1: for every set of well-formed JSON files discovered in the input
directory, the batch passed to the broker's update call contains exactly one
parsed Document per discovered file, in discovery order, and each Document is
structurally equal to the JSON value parsed from that file's content. -/
theorem claim_C1_batch_is_parsed_docs (fs : List Entry) (docs : List Json)
    (h : (discover fs).map (loadDoc fs) = docs.map some) :
    (main fs).2 = Except.ok () ∧ Ev.brokerUpdate docs ∈ (main fs).1 := by
  have hk := loadLoop_ok fs (discover fs) docs [] h
  constructor
  · simp [main, hk]
  · simp [main, hk]

theorem claim_C1_witness :
    (List.map (loadDoc [Entry.mk "a.json" (Node.file "[1, true]"), Entry.mk "b.json" (Node.file "7")])
        (discover [Entry.mk "a.json" (Node.file "[1, true]"), Entry.mk "b.json" (Node.file "7")])
      = List.map some
          [Json.arr (JsonElems.cons (Json.num 1) (JsonElems.cons (Json.bool true) JsonElems.nil)),
            Json.num 7]) ∧
    ((main [Entry.mk "a.json" (Node.file "[1, true]"), Entry.mk "b.json" (Node.file "7")]).2
        = Except.ok () ∧
      Ev.brokerUpdate
          [Json.arr (JsonElems.cons (Json.num 1) (JsonElems.cons (Json.bool true) JsonElems.nil)),
            Json.num 7]
        ∈ (main [Entry.mk "a.json" (Node.file "[1, true]"),
            Entry.mk "b.json" (Node.file "7")]).1) :=
  ⟨rfl, claim_C1_batch_is_parsed_docs _ _ rfl⟩

/-- C2: if any one discovered file fails to parse or to open, the error is
not caught: the run ends in an error, the broker update is never invoked,
and files after the failing one are never opened. -/
theorem claim_C2_failure_aborts_run (fs : List Entry) (pre post : List String) (bad : String)
    (hsplit : discover fs = pre ++ bad :: post)
    (hpre : ∀ n ∈ pre, loadDoc fs n ≠ none)
    (hbad : loadDoc fs bad = none) :
    (∃ err, (main fs).2 = Except.error err) ∧
      (∀ b, Ev.brokerUpdate b ∉ (main fs).1) ∧
      (∀ m, Ev.fileOpened m ∈ (main fs).1 → m ∈ pre ++ [bad]) := by
  obtain ⟨⟨err, herr⟩, hmem⟩ := loadLoop_fail fs bad post hbad pre [] hpre
  refine ⟨⟨err, ?_⟩, ?_, ?_⟩
  · simp only [main, hsplit, herr]
  · intro b hb
    simp only [main, hsplit, herr] at hb
    exact loadLoop_no_update fs (pre ++ bad :: post) [] b hb
  · intro m hm
    simp only [main, hsplit, herr] at hm
    exact hmem m hm

theorem claim_C2_witness :
    (discover [Entry.mk "bad.json" (Node.file "nope")] = [] ++ "bad.json" :: []) ∧
    (∀ n ∈ ([] : List String), loadDoc [Entry.mk "bad.json" (Node.file "nope")] n ≠ none) ∧
    (loadDoc [Entry.mk "bad.json" (Node.file "nope")] "bad.json" = none) ∧
    ((∃ err, (main [Entry.mk "bad.json" (Node.file "nope")]).2 = Except.error err) ∧
      (∀ b, Ev.brokerUpdate b ∉ (main [Entry.mk "bad.json" (Node.file "nope")]).1) ∧
      (∀ m, Ev.fileOpened m ∈ (main [Entry.mk "bad.json" (Node.file "nope")]).1 →
        m ∈ [] ++ ["bad.json"])) :=
  ⟨rfl, by simp, rfl, claim_C2_failure_aborts_run _ [] [] _ rfl (by simp) rfl⟩

/-- C3: when discovery yields zero files (the directory is empty or absent),
the run is not an error: the broker update is still invoked exactly once,
with the empty batch. -/
theorem claim_C3_empty_discovery_updates_empty (fs : List Entry)
    (h : discover fs = []) : main fs = ([Ev.brokerUpdate []], Except.ok ()) := by
  simp [main, h, loadLoop]

theorem claim_C3_witness :
    discover [] = [] ∧ main [] = ([Ev.brokerUpdate []], Except.ok ()) :=
  ⟨rfl, claim_C3_empty_discovery_updates_empty [] rfl⟩

/-- C4: when all discovered files parse, the broker update is invoked
exactly once, only after every discovered file has been opened, parsed and
accumulated, and its argument is the full batch. -/
theorem claim_C4_single_update_last (fs : List Entry) (docs : List Json)
    (h : (discover fs).map (loadDoc fs) = docs.map some) :
    (main fs).1 = pairedEvs (discover fs) ++ [Ev.brokerUpdate docs] ∧
      countUpdates (main fs).1 = 1 ∧ (main fs).2 = Except.ok () := by
  have hk := loadLoop_ok fs (discover fs) docs [] h
  refine ⟨?_, ?_, ?_⟩
  · simp [main, hk]
  · simp [main, hk, countUpdates_append, countUpdates_pairedEvs, countUpdates]
  · simp [main, hk]

theorem claim_C4_witness :
    (List.map (loadDoc [Entry.mk "one.json" (Node.file "null")])
        (discover [Entry.mk "one.json" (Node.file "null")])
      = List.map some [Json.null]) ∧
    ((main [Entry.mk "one.json" (Node.file "null")]).1
      = pairedEvs (discover [Entry.mk "one.json" (Node.file "null")])
          ++ [Ev.brokerUpdate [Json.null]] ∧
      countUpdates (main [Entry.mk "one.json" (Node.file "null")]).1 = 1 ∧
      (main [Entry.mk "one.json" (Node.file "null")]).2 = Except.ok ()) :=
  ⟨rfl, claim_C4_single_update_last _ _ rfl⟩

/-- C5: for every discovered file, parsing opens the file for reading, reads
its full decoded text, and deserializes that text as JSON into a generic
structured value: a file whose content is valid JSON yields the
corresponding Document. -/
theorem claim_C5_open_read_deserialize (fs : List Entry) (n : String)
    (content : String) (d : Json)
    (h1 : openFile fs n = some content) (h2 : parse content = some d) :
    loadDoc fs n = some d := by
  simp [loadDoc, h1, h2]

theorem claim_C5_witness :
    openFile [Entry.mk "e.json" (Node.file "[-2, \"x\"]")] "e.json" = some "[-2, \"x\"]" ∧
    parse "[-2, \"x\"]"
      = some (Json.arr (JsonElems.cons (Json.num (-2))
          (JsonElems.cons (Json.str "x") JsonElems.nil))) ∧
    loadDoc [Entry.mk "e.json" (Node.file "[-2, \"x\"]")] "e.json"
      = some (Json.arr (JsonElems.cons (Json.num (-2))
          (JsonElems.cons (Json.str "x") JsonElems.nil))) :=
  ⟨rfl, rfl, claim_C5_open_read_deserialize _ _ _ _ rfl rfl⟩

/-- C6: discovery returns exactly the entries of the fixed directory whose
names match the glob pattern, i.e. end in `.json` and are not hidden by a
leading dot, non-recursively; the run is a function of the directory listing
alone, so no command-line argument or environment variable can influence
it. -/
theorem claim_C6_discovery_is_glob (fs : List Entry) (n : String) :
    n ∈ discover fs ↔
      (∃ e ∈ fs, e.name = n) ∧ hasJsonExt n = true ∧ hiddenName n = false :=
  mem_discover_iff fs n

/-- C7: re-serializing any Document produced by parsing yields JSON that is
semantically equivalent to the original content: it parses back to the very
same Document, though the text need not be byte-identical. -/
theorem claim_C7_roundtrip (s : String) (d : Json) (h : parse s = some d) :
    parse (serialize d) = some d ∧ parse (serialize d) = parse s :=
  ⟨parse_serialize d, by rw [parse_serialize d, h]⟩

theorem claim_C7_witness :
    parse "\x7b\"k\": [1, null]\x7d"
      = some (Json.obj (JsonMembers.cons "k"
          (Json.arr (JsonElems.cons (Json.num 1) (JsonElems.cons Json.null JsonElems.nil)))
          JsonMembers.nil)) ∧
    (parse (serialize (Json.obj (JsonMembers.cons "k"
          (Json.arr (JsonElems.cons (Json.num 1) (JsonElems.cons Json.null JsonElems.nil)))
          JsonMembers.nil)))
        = some (Json.obj (JsonMembers.cons "k"
            (Json.arr (JsonElems.cons (Json.num 1) (JsonElems.cons Json.null JsonElems.nil)))
            JsonMembers.nil)) ∧
      parse (serialize (Json.obj (JsonMembers.cons "k"
          (Json.arr (JsonElems.cons (Json.num 1) (JsonElems.cons Json.null JsonElems.nil)))
          JsonMembers.nil)))
        = parse "\x7b\"k\": [1, null]\x7d") :=
  ⟨rfl, claim_C7_roundtrip _ _ rfl⟩

/-- C8: every file handle acquired during a run is released again, on all
exit paths, including the run that aborts because a file's content fails to
parse: opens and closes balance in every trace. -/
theorem claim_C8_handles_balanced (fs : List Entry) (n : String) :
    countOpens n (main fs).1 = countCloses n (main fs).1 := by
  rcases h : (loadLoop fs (discover fs) []).2 with err | objects
  · simp only [main, h]
    exact loadLoop_balanced fs n (discover fs) []
  · simp only [main, h]
    rw [countOpens_append, countCloses_append, loadLoop_balanced fs n (discover fs) []]
    rfl

/-- C9: determinism: two runs over filesystems that agree on the discovered
listing and on the content of every discovered file produce identical traces
and outcomes, so in particular the same batch reaches the broker; the
program reads no other input. -/
theorem claim_C9_determinism (fs1 fs2 : List Entry)
    (h1 : discover fs1 = discover fs2)
    (h2 : ∀ n ∈ discover fs1, openFile fs1 n = openFile fs2 n) :
    main fs1 = main fs2 := by
  have hext := loadLoop_ext fs1 fs2 (discover fs1) [] h2
  simp only [main]
  rw [hext, h1]

theorem claim_C9_witness :
    discover [Entry.mk "a.json" (Node.file "3")]
        = discover [Entry.mk "a.json" (Node.file "3"), Entry.mk "notes.txt" (Node.file "x")] ∧
    (∀ n ∈ discover [Entry.mk "a.json" (Node.file "3")],
      openFile [Entry.mk "a.json" (Node.file "3")] n
        = openFile [Entry.mk "a.json" (Node.file "3"), Entry.mk "notes.txt" (Node.file "x")] n) ∧
    main [Entry.mk "a.json" (Node.file "3")]
        = main [Entry.mk "a.json" (Node.file "3"), Entry.mk "notes.txt" (Node.file "x")] := by
  have hc : ∀ n ∈ discover [Entry.mk "a.json" (Node.file "3")],
      openFile [Entry.mk "a.json" (Node.file "3")] n
        = openFile [Entry.mk "a.json" (Node.file "3"), Entry.mk "notes.txt" (Node.file "x")] n := by
    intro n hn
    have hdis : discover [Entry.mk "a.json" (Node.file "3")] = ["a.json"] := rfl
    rw [hdis, List.mem_singleton] at hn
    subst hn
    rfl
  exact ⟨rfl, hc, claim_C9_determinism _ _ rfl hc⟩

/-- C10 as frozen is false: `glob`'s `*` never matches a name that begins
with a dot, so an entry whose name ends in `.json` can still be skipped by
discovery. -/
theorem claim_C10_counterexample :
    hasJsonExt ".hidden.json" = true ∧
      ".hidden.json" ∉ discover [Entry.mk ".hidden.json" (Node.file "1")] := by
  refine ⟨rfl, ?_⟩
  intro h
  rw [show discover [Entry.mk ".hidden.json" (Node.file "1")] = [] from rfl] at h
  exact List.not_mem_nil _ h

/-- C10 (amended): discovery matches any non-hidden directory entry whose
name ends in `.json`, including subdirectories; when a matched entry cannot
be opened as a readable file, the error propagates (the run ends in an
error) and the broker update call is never invoked. -/
theorem claim_C10_amended_dir_matched (fs : List Entry) (e : Entry)
    (hmem : e ∈ fs) (_hdir : e.node = Node.dir) (hglob : globMatch e.name = true) :
    e.name ∈ discover fs ∧
      (openFile fs e.name = none →
        (∃ err, (main fs).2 = Except.error err) ∧
          ∀ b, Ev.brokerUpdate b ∉ (main fs).1) := by
  have hmemd : e.name ∈ discover fs := by
    simp only [discover, List.mem_map, List.mem_filter]
    exact ⟨e, ⟨hmem, hglob⟩, rfl⟩
  refine ⟨hmemd, ?_⟩
  intro hnone
  have hld : loadDoc fs e.name = none := by simp [loadDoc, hnone]
  obtain ⟨err, herr⟩ :=
    loadLoop_err_of_fail fs (discover fs) [] ⟨e.name, hmemd, hld⟩
  refine ⟨⟨err, ?_⟩, ?_⟩
  · simp only [main, herr]
  · intro b hb
    simp only [main, herr] at hb
    exact loadLoop_no_update fs (discover fs) [] b hb

theorem claim_C10_witness :
    Entry.mk "sub.json" Node.dir ∈ [Entry.mk "sub.json" Node.dir] ∧
    (Entry.mk "sub.json" Node.dir).node = Node.dir ∧
    globMatch (Entry.mk "sub.json" Node.dir).name = true ∧
    ((Entry.mk "sub.json" Node.dir).name ∈ discover [Entry.mk "sub.json" Node.dir] ∧
      (openFile [Entry.mk "sub.json" Node.dir] (Entry.mk "sub.json" Node.dir).name = none →
        (∃ err, (main [Entry.mk "sub.json" Node.dir]).2 = Except.error err) ∧
          ∀ b, Ev.brokerUpdate b ∉ (main [Entry.mk "sub.json" Node.dir]).1)) :=
  ⟨List.mem_singleton.mpr rfl, rfl, rfl,
    claim_C10_amended_dir_matched _ _ (List.mem_singleton.mpr rfl) rfl rfl⟩

end Reupload
